import Mathlib

/-!
# Verification of the lazy_db storage engine (src/lazy_db/lazy_db.py)

A shallow embedding of the single-file key-value store: the on-disk byte
format, the type-tagged value codec, the index-building scanner
(`get_headers`), and the write / read / delete operations, followed by
theorems settling the specification claims.

Modelling conventions:
* A file is a `List Nat` of byte values; the OS file handle (seek / read /
  write / truncate) becomes explicit position arithmetic on that list.
  `fileRead f pos n` returns at most `n` bytes, like `f.read(n)` at
  position `pos`; seeking past the end is allowed, as in Python.
* Python `str` values are represented by their UTF-8 byte sequences
  (UTF-8 en/decoding is a bijection the code only passes through);
  Python `dict` documents are represented by their compact serialized
  JSON byte form, since the spec treats the structured-data codec as an
  external pre-existing primitive.  The one JSON document the engine
  itself builds and parses — the header record written by `write_info`
  and read back by `get_info` — is modelled concretely, byte for byte.
* Machine integers are `Nat` / `Int`; `int.to_bytes(L, 'little')` raises
  `OverflowError` outside `[0, 256^L)`, and `math.log` raises a math
  domain `ValueError` for arguments `≤ 0`.  The float expression
  `math.ceil(math.log(n)/math.log(256))` is modelled as the exact real
  `⌈log_256 n⌉` (`Nat.clog 256 n`); every claim settled below depends on
  that expression only at `n ≤ 0`, where no logarithm is evaluated.
* Exceptions become an `Err` result; each operation returns its updated
  state alongside the result, mutating exactly what the Python mutates
  before the corresponding `raise`.
* The two unbounded loops (`delete`'s chunked backward copy and the
  `get_headers` scan) take a fuel argument so that they stay structurally
  recursive and kernel-computable; callers pass `file.length + 1`, which
  is proved sufficient since every iteration advances the position.
-/

namespace LazyDb

/-- Errors raised by the engine, named after the Python exceptions.
The spec's unified taxonomy maps onto them as follows:
`KeyNotFoundError` ≙ `keyError_notFound`, `DuplicateKeyError` ≙
`keyError_duplicate`, `EncodingError` / unrelated codec failures ≙
`valueError_mathDomain` / `overflowError`. -/
inductive Err where
  | keyError_notFound      -- KeyError "No entry found for that key"  (read_len)
  | keyError_duplicate     -- KeyError "Key ... is already in the database"  (write_bytes)
  | indexingError          -- IndexingError  (get_headers, bad key header byte)
  | valueError_mathDomain  -- ValueError: math domain error  (math.log of n <= 0)
  | overflowError          -- OverflowError  (int.to_bytes out of range)
  | typeError_badTag       -- TypeError  (from_bytes, unknown type header byte)
  | indexError             -- IndexError  (from_bytes of empty bytes: bytes_data[0])
  | jsonError              -- ValueError from json.loads / KeyError on the info dict
deriving DecidableEq

/-- A database key: Python `Union[str, int]`; a `str` is carried as its
UTF-8 byte sequence. -/
inductive Key where
  | str (s : List Nat)
  | int (n : Int)
deriving DecidableEq

/-- A value accepted by `write`: Python `Union[str, bytes, int, List[int], dict]`.
`vstr` carries the UTF-8 bytes of the string; `vdict` carries the compact
serialized JSON bytes of the document (the JSON codec is an external
collaborator per the spec, and `json.dumps`/`json.loads` act as the
identity on this representation). -/
inductive Value where
  | vstr (s : List Nat)
  | vint (n : Int)
  | vintList (l : List Int)
  | vdict (j : List Nat)
  | vbytes (b : List Nat)
deriving DecidableEq

/-- `f.read(n)` at absolute position `pos`: returns at most `n` bytes. -/
def fileRead (f : List Nat) (pos n : Nat) : List Nat :=
  (f.drop pos).take n

/-- Little-endian encoding of `int.to_bytes(L, 'little')` after its range
check: exactly `L` bytes, least significant first. -/
def toLE : Nat → Nat → List Nat
  | 0, _ => []
  | L + 1, n => n % 256 :: toLE L (n / 256)

/-- `int.from_bytes(bytes, 'little')`. -/
def fromLE (l : List Nat) : Nat :=
  l.foldr (fun b acc => b + 256 * acc) 0

/-- `int.to_bytes(length, 'little')` including its range check: raises
`OverflowError` for negative values or values not fitting in `length`
bytes. -/
def pyToBytes (n : Int) (length : Nat) : Except Err (List Nat) :=
  if n < 0 ∨ (256 : Int) ^ length ≤ n then .error .overflowError
  else .ok (toLE length n.toNat)

/-- `LazyDb.int_to_bytes`.  When `length` is `None` the Python computes
`math.ceil(math.log(integer_in)/math.log(256))`: `math.log` raises a math
domain `ValueError` for `integer_in ≤ 0`, and for positive arguments the
expression is modelled as the exact real `⌈log_256 n⌉ = Nat.clog 256 n`
(so `1` gets width `0` and `256^k` gets width `k`, both of which then
make `to_bytes` raise `OverflowError`, as in Python). -/
def int_to_bytes (integer_in : Int) (add_type_header : Bool) (length : Option Nat) :
    Except Err (List Nat) := do
  let L ← match length with
    | some L => pure L
    | none =>
      if integer_in ≤ 0 then Except.error Err.valueError_mathDomain
      else pure (Nat.clog 256 integer_in.toNat)
  let data ← pyToBytes integer_in L
  pure (if add_type_header then 2 :: data else data)

/-- `LazyDb.bytes_to_int_list`: decodes `len // int_list_size` groups,
silently ignoring any trailing bytes. -/
def bytes_to_int_list (int_list_size : Nat) (bytes_in : List Nat) : List Int :=
  (List.range (bytes_in.length / int_list_size)).map
    (fun i => Int.ofNat (fromLE ((bytes_in.drop (i * int_list_size)).take int_list_size)))

/-- `LazyDb.int_list_to_bytes` (with the type header handled by the caller
`to_bytes` below): each element is encoded with the configured fixed
width. -/
def int_list_to_bytes (int_list_size : Nat) (list_in : List Int) : Except Err (List Nat) := do
  let chunks ← list_in.mapM (fun v => int_to_bytes v false (some int_list_size))
  pure chunks.flatten

/-- `LazyDb.to_bytes`: type-tagged encoding of a value. -/
def to_bytes (int_list_size : Nat) : Value → Except Err (List Nat)
  | .vstr s => .ok (1 :: s)
  | .vint n => int_to_bytes n true none
  | .vintList l => do
      let body ← int_list_to_bytes int_list_size l
      pure (4 :: body)
  | .vdict j => .ok (3 :: j)
  | .vbytes b => .ok (5 :: b)

/-- `LazyDb.from_bytes`: dispatch on the type tag byte.  An empty input
raises `IndexError` (`bytes_data[0]`), an unknown tag raises `TypeError`. -/
def from_bytes (int_list_size : Nat) : List Nat → Except Err Value
  | [] => .error .indexError
  | t :: rest =>
    if t = 1 then .ok (.vstr rest)
    else if t = 2 then .ok (.vint (Int.ofNat (fromLE rest)))
    else if t = 3 then .ok (.vdict rest)
    else if t = 4 then .ok (.vintList (bytes_to_int_list int_list_size rest))
    else if t = 5 then .ok (.vbytes rest)
    else .error .typeError_badTag

/-! ## The header record (`write_info` / `get_info`)

`write_info` serializes `{"key_int_size": .., "content_int_size": ..,
"int_list_size": ..}` with `json.dumps(separators=(',', ':'))` and appends a
NUL terminator; `get_info` reads up to the first NUL and `json.loads` it.
The JSON codec is external; here it is modelled byte-exactly for this one
fixed-shape document (ASCII decimal numbers, no whitespace). -/

/-- ASCII decimal digits of `n`, most significant first (helper for the
serialized info document); fuel-based so it kernel-computes. -/
def decDigitsCore : Nat → Nat → List Nat → List Nat
  | 0, _, acc => acc
  | fuel + 1, n, acc =>
    if n < 10 then (48 + n) :: acc
    else decDigitsCore fuel (n / 10) ((48 + n % 10) :: acc)

/-- ASCII decimal representation of `n`. -/
def decDigits (n : Nat) : List Nat :=
  decDigitsCore (n + 1) n []

/-- The bytes of the literal `{"key_int_size":`. -/
def litKeyInt : List Nat :=
  [123, 34, 107, 101, 121, 95, 105, 110, 116, 95, 115, 105, 122, 101, 34, 58]

/-- The bytes of the literal `,"content_int_size":`. -/
def litContentInt : List Nat :=
  [44, 34, 99, 111, 110, 116, 101, 110, 116, 95, 105, 110, 116, 95, 115, 105, 122, 101, 34, 58]

/-- The bytes of the literal `,"int_list_size":`. -/
def litIntList : List Nat :=
  [44, 34, 105, 110, 116, 95, 108, 105, 115, 116, 95, 115, 105, 122, 101, 34, 58]

/-- `json.dumps(info, separators=(',', ':')).encode('utf-8')` for the info
dict written by `write_info` (Python dicts preserve insertion order, so the
three keys appear exactly in this order). -/
def infoJson (key_int_size content_int_size int_list_size : Nat) : List Nat :=
  litKeyInt ++ decDigits key_int_size ++
  litContentInt ++ decDigits content_int_size ++
  litIntList ++ decDigits int_list_size ++ [125]

/-- ASCII digit test. -/
def isDigit (b : Nat) : Bool := 48 ≤ b && b ≤ 57

/-- Numeric value of a digit string. -/
def digitsVal (l : List Nat) : Nat :=
  l.foldl (fun a d => a * 10 + (d - 48)) 0

/-- Parse a nonempty run of ASCII digits. -/
def parseNat (l : List Nat) : Option (Nat × List Nat) :=
  let ds := l.takeWhile isDigit
  if ds.isEmpty then none else some (digitsVal ds, l.dropWhile isDigit)

/-- Expect an exact literal prefix. -/
def parseLit (lit l : List Nat) : Option (List Nat) :=
  if l.take lit.length = lit then some (l.drop lit.length) else none

/-- `json.loads` restricted to the fixed-shape info document produced by
`write_info` (the only JSON the engine itself parses); any other byte
sequence is a parse failure. -/
def parseInfo (l : List Nat) : Option (Nat × Nat × Nat) := do
  let r1 ← parseLit litKeyInt l
  let (k, r2) ← parseNat r1
  let r3 ← parseLit litContentInt r2
  let (c, r4) ← parseNat r3
  let r5 ← parseLit litIntList r4
  let (i, r6) ← parseNat r5
  if r6 = [125] then some (k, c, i) else none

/-! ## The in-memory index (a Python dict) -/

/-- `headers.get(key, None)` on the insertion-ordered assoc-list model of a
Python dict. -/
def lookupKey (m : List (Key × Nat)) (k : Key) : Option Nat :=
  (m.find? (fun e => e.1 = k)).map (fun e => e.2)

/-- `headers[key] = v`: update in place if present, else append. -/
def dictInsert (m : List (Key × Nat)) (k : Key) (v : Nat) : List (Key × Nat) :=
  if (lookupKey m k).isSome then m.map (fun e => if e.1 = k then (k, v) else e)
  else m ++ [(k, v)]

/-- `del headers[key]`. -/
def eraseKey (m : List (Key × Nat)) (k : Key) : List (Key × Nat) :=
  m.filter (fun e => ¬ e.1 = k)

/-! ## The storage engine state and operations -/

/-- The state a `LazyDb` object owns: the backing file's bytes, the file
handle's position, the in-memory index, and the three configured widths. -/
structure DbState where
  file : List Nat
  pos : Nat
  headers : List (Key × Nat)
  key_int_size : Nat
  content_int_size : Nat
  int_list_size : Nat
deriving DecidableEq

/-- `__init__` on a path that does not exist: adopt the caller's widths,
`write_info`, start with an empty index (the cursor sits at the end of the
just-written header record). -/
def bootstrap (key_int_size content_int_size int_list_size : Nat) : DbState :=
  let info := infoJson key_int_size content_int_size int_list_size ++ [0]
  ⟨info, info.length, [], key_int_size, content_int_size, int_list_size⟩

/-- `LazyDb.read_len`: index lookup, absolute seek to the entry's length
field, read `content_int_size` bytes.  Raises `KeyError` (missing key)
before touching the file. -/
def read_len (st : DbState) (key : Key) : DbState × Except Err Nat :=
  match lookupKey st.headers key with
  | none => (st, .error .keyError_notFound)
  | some location =>
    let length_bytes := fileRead st.file location st.content_int_size
    ({ st with pos := location + length_bytes.length }, .ok (fromLE length_bytes))

/-- `LazyDb.read`: `read_len` then read and decode that many content
bytes. -/
def read (st : DbState) (key : Key) : DbState × Except Err Value :=
  match read_len st key with
  | (st1, .error e) => (st1, .error e)
  | (st1, .ok length) =>
    let content_bytes := fileRead st1.file st1.pos length
    ({ st1 with pos := st1.pos + content_bytes.length },
     from_bytes st.int_list_size content_bytes)

/-- `LazyDb.gen_header`: `(b"\x00" + key_bytes + b"\x00" + content_len_bytes,
len(key_bytes) + 2)`; the content length is encoded first, with the
configured fixed width. -/
def gen_header (key_int_size content_int_size : Nat) (key : Key) (data : List Nat) :
    Except Err (List Nat × Nat) := do
  let content_len_bytes ← int_to_bytes (Int.ofNat data.length) false (some content_int_size)
  let key_bytes ← match key with
    | .str s => pure (1 :: s)
    | .int n => int_to_bytes n true (some key_int_size)
  pure (0 :: key_bytes ++ 0 :: content_len_bytes, key_bytes.length + 2)

/-- `LazyDb.write_raw_bytes`: seek to end of file, append, return the
append position. -/
def write_raw_bytes (st : DbState) (data : List Nat) : DbState × Nat :=
  ({ st with file := st.file ++ data, pos := st.file.length + data.length },
   st.file.length)

/-- `LazyDb.write_bytes`: duplicate-key check first, then `gen_header` and
append; returns the absolute offset where the content starts. -/
def write_bytes (st : DbState) (key : Key) (data : List Nat) : DbState × Except Err Nat :=
  if (lookupKey st.headers key).isSome then (st, .error .keyError_duplicate)
  else
    match gen_header st.key_int_size st.content_int_size key data with
    | .error e => (st, .error e)
    | .ok (header, content_offset) =>
      let (st1, write_location) := write_raw_bytes st (header ++ data)
      (st1, .ok (write_location + content_offset))

/-- `LazyDb.write`: encode the value (errors abort before any byte reaches
the file), append it under the key, record the content offset. -/
def write (st : DbState) (key : Key) (value : Value) : DbState × Option Err :=
  match to_bytes st.int_list_size value with
  | .error e => (st, some e)
  | .ok data =>
    match write_bytes st key data with
    | (st1, .error e) => (st1, some e)
    | (st1, .ok content_location) =>
      ({ st1 with headers := dictInsert st1.headers key content_location }, none)

/-- `LazyDb.reconstruct_header_size`: content-length width + key byte width
(excluding its type tag) + 3 separator/tag bytes. -/
def reconstruct_header_size (key_int_size content_int_size : Nat) : Key → Nat
  | .str s => content_int_size + s.length + 3
  | .int _ => content_int_size + key_int_size + 3

/-- Python list write at absolute position `p` (zero-padding any gap past
the end of the file, as `os` writes beyond EOF do). -/
def writeAt (f : List Nat) (p : Nat) (d : List Nat) : List Nat :=
  f.take p ++ List.replicate (p - f.length) 0 ++ d ++ f.drop (p + d.length)

/-- The chunked backward-copy loop inside `delete`: read up to 1024 bytes
at the scan position, write them `entry_len` bytes earlier, restore the
scan position; stop at EOF.  Fuel-based (callers pass `file.length + 1`,
sufficient since each iteration advances the position). -/
def shiftLoop (entry_len : Nat) : Nat → List Nat → Nat → List Nat × Nat
  | 0, f, readPos => (f, readPos)
  | fuel + 1, f, readPos =>
    let data := fileRead f readPos 1024
    if data.isEmpty then (f, readPos)
    else shiftLoop entry_len fuel (writeAt f (readPos - entry_len) data) (readPos + data.length)

/-- `LazyDb.delete`: locate the entry via `read_len`, shift every trailing
byte backward by the entry's span, truncate, drop the key from the index,
and rebase every index offset at or beyond the deleted entry's content
field. -/
def delete (st : DbState) (key : Key) : DbState × Option Err :=
  match read_len st key with
  | (st1, .error e) => (st1, some e)
  | (st1, .ok content_len) =>
    let entry_location := st1.pos
    let header_len := reconstruct_header_size st.key_int_size st.content_int_size key
    let entry_len := header_len + content_len
    let (f1, _) := shiftLoop entry_len (st1.file.length + 1) st1.file (st1.pos + content_len)
    let endPos := f1.length
    let f2 := f1.take (endPos - entry_len)
    let h1 := eraseKey st1.headers key
    let h2 := h1.map (fun e => if entry_location ≤ e.2 then (e.1, e.2 - entry_len) else e)
    ({ st1 with file := f2, pos := endPos, headers := h2 }, none)

/-! ## The index builder (`get_headers`) and reopening (`__init__` on an
existing file) -/

/-- `read_to(b"\x00")` on a byte suffix: the bytes before the first NUL
(or all of them at EOF), together with how many bytes were consumed
(including the terminator when found). -/
def readTo0 : List Nat → List Nat × Nat
  | [] => ([], 0)
  | b :: rest =>
    if b = 0 then ([], 1)
    else
      let r := readTo0 rest
      (b :: r.1, r.2 + 1)

/-- `seek(0); seek_to(b"\x00")`: the position just after the first NUL, or
EOF when there is none (the code ignores `seek_to`'s failure result). -/
def seekToNul : List Nat → Nat
  | [] => 0
  | b :: rest => if b = 0 then 1 else 1 + seekToNul rest

/-- The scan loop of `get_headers`: read an entry marker, the key-type
byte, the key, record the position of the length field, then skip the
content.  `acc` is the `headers_out` dict.  A key-type byte other than
1 or 2 (including EOF) raises `IndexingError`. -/
def scanGo (key_int_size content_int_size : Nat) (f : List Nat) :
    Nat → Nat → List (Key × Nat) → Except Err (List (Key × Nat) × Nat)
  | 0, pos, acc => .ok (acc, pos)
  | fuel + 1, pos, acc =>
    let m := fileRead f pos 1
    if m = [0] then
      let ktB := fileRead f (pos + 1) 1
      if ktB = [1] then
        let r := readTo0 (f.drop (pos + 2))
        let key := Key.str r.1
        let off := pos + 2 + r.2
        let length_bytes := fileRead f off content_int_size
        scanGo key_int_size content_int_size f fuel
          (off + length_bytes.length + fromLE length_bytes) (dictInsert acc key off)
      else if ktB = [2] then
        let kb := fileRead f (pos + 2) key_int_size
        let key := Key.int (Int.ofNat (fromLE kb))
        let off := pos + 2 + kb.length + 1
        let length_bytes := fileRead f off content_int_size
        scanGo key_int_size content_int_size f fuel
          (off + length_bytes.length + fromLE length_bytes) (dictInsert acc key off)
      else .error .indexingError
    else .ok (acc, pos + m.length)

/-- `LazyDb.get_headers`: scan forward from just past the header record's
NUL terminator, returning the rebuilt index and the final file position. -/
def get_headers (key_int_size content_int_size : Nat) (f : List Nat) :
    Except Err (List (Key × Nat) × Nat) :=
  scanGo key_int_size content_int_size f (f.length + 1) (seekToNul f) []

/-- `__init__` on a path that already exists: parse the header record
(caller-supplied widths are ignored), then build the index by scanning. -/
def openDb (f : List Nat) : Except Err DbState :=
  match parseInfo (readTo0 f).1 with
  | none => .error .jsonError
  | some (kis, cis, ils) =>
    match get_headers kis cis f with
    | .error e => .error e
    | .ok (hs, p) => .ok ⟨f, p, hs, kis, cis, ils⟩

/-- Concrete witness states: a fresh default database after writing the
string key "a" (byte 97) with string value "x" (byte 120), and after a
second write of key "b" (98) with value "y" (121). -/
def stA : DbState :=
  (write (bootstrap 4 4 4) (.str [97]) (.vstr [120])).1

/-- Witness state with two entries (keys "a" and "b"). -/
def stW : DbState :=
  (write stA (.str [98]) (.vstr [121])).1

/-- Witness state after writing the NUL-containing string key
"a\x00b" (bytes 97, 0, 98) on a fresh default database. -/
def stN : DbState :=
  (write (bootstrap 4 4 4) (.str [97, 0, 98]) (.vstr [120])).1


/-! ## Operation sequences (for the index-fidelity claim) -/

/-- One public mutating operation. -/
inductive Op where
  | wr (k : Key) (v : Value)
  | del (k : Key)

/-- Run a sequence of operations, requiring every one of them to succeed. -/
def runOps (st : DbState) : List Op → Option DbState
  | [] => some st
  | .wr k v :: ops =>
    match write st k v with
    | (st1, none) => runOps st1 ops
    | (_, some _) => none
  | .del k :: ops =>
    match delete st k with
    | (st1, none) => runOps st1 ops
    | (_, some _) => none

/-- The write operations of a sequence use no NUL byte inside a string
key (NUL is the on-disk key-field terminator; see claim C10). -/
def opStrKeyNulFree : Op → Prop
  | .wr (.str s) _ => ¬ 0 ∈ s
  | _ => True

instance (op : Op) : Decidable (opStrKeyNulFree op) := by
  rcases op with ⟨k, v⟩ | k
  · cases k <;> simp only [opStrKeyNulFree] <;> infer_instance
  · simp only [opStrKeyNulFree]; infer_instance

/-- The operation sequence used as index-fidelity witness. -/
def opsW : List Op :=
  [.wr (.str [97]) (.vstr [120]), .wr (.str [98]) (.vstr [121]), .del (.str [97])]

/-- The state reached by the witness operation sequence. -/
def stR : DbState :=
  (runOps (bootstrap 4 4 4) opsW).getD (bootstrap 4 4 4)

/-! ## Representation of well-formed database files

A reachable database file is the header record followed by a sequence of
entries; `Models st es` says state `st` represents the entry list `es`.
These definitions are the specification-side description of the on-disk
format (§3 of the spec): entry = `0x00 | KeyEncoding | 0x00 |
ContentLength(LE) | Content`. -/

/-- The `KeyEncoding` bytes of a key (type tag plus key bytes), as
produced by `gen_header`. -/
def keyBytes (key_int_size : Nat) : Key → List Nat
  | .str s => 1 :: s
  | .int n => 2 :: toLE key_int_size n.toNat

/-- The full on-disk bytes of one entry. -/
def entryBytes (key_int_size content_int_size : Nat) (k : Key) (d : List Nat) : List Nat :=
  0 :: keyBytes key_int_size k ++ 0 :: toLE content_int_size d.length ++ d

/-- Concatenated bytes of an entry list. -/
def entsBytes (key_int_size content_int_size : Nat) : List (Key × List Nat) → List Nat
  | [] => []
  | (k, d) :: es =>
    entryBytes key_int_size content_int_size k d ++ entsBytes key_int_size content_int_size es

/-- The index induced by an entry list laid out from absolute offset
`base`: each key maps to the offset of its entry's `ContentLength`
field. -/
def idxEnts (key_int_size content_int_size : Nat) (base : Nat) :
    List (Key × List Nat) → List (Key × Nat)
  | [] => []
  | (k, d) :: es =>
    (k, base + 2 + (keyBytes key_int_size k).length) ::
      idxEnts key_int_size content_int_size
        (base + (entryBytes key_int_size content_int_size k d).length) es

/-- A key the engine can write and the scanner reads back identically:
string keys must not contain the NUL field terminator; integer keys must
fit the configured width unsigned. -/
def goodKey (key_int_size : Nat) : Key → Prop
  | .str s => ¬ 0 ∈ s
  | .int n => 0 ≤ n ∧ n < (256 : Int) ^ key_int_size

instance (key_int_size : Nat) (k : Key) : Decidable (goodKey key_int_size k) := by
  cases k <;> simp only [goodKey] <;> infer_instance

/-- A well-formed stored entry: good key and a content length that fits
the configured length-field width. -/
def goodEntry (key_int_size content_int_size : Nat) (e : Key × List Nat) : Prop :=
  goodKey key_int_size e.1 ∧ e.2.length < 256 ^ content_int_size

instance (key_int_size content_int_size : Nat) (e : Key × List Nat) :
    Decidable (goodEntry key_int_size content_int_size e) := by
  unfold goodEntry; infer_instance

/-- The byte content of a database file representing the entry list
`es`. -/
def fileRep (key_int_size content_int_size int_list_size : Nat)
    (es : List (Key × List Nat)) : List Nat :=
  infoJson key_int_size content_int_size int_list_size ++
    0 :: entsBytes key_int_size content_int_size es

/-- State `st` represents the entry list `es`: the file is the header
record followed by the entries' bytes, the in-memory index is exactly the
induced index, every entry is well formed, and keys are unique. -/
def Models (st : DbState) (es : List (Key × List Nat)) : Prop :=
  st.file = fileRep st.key_int_size st.content_int_size st.int_list_size es ∧
  st.headers =
    idxEnts st.key_int_size st.content_int_size
      ((infoJson st.key_int_size st.content_int_size st.int_list_size).length + 1) es ∧
  (∀ e ∈ es, goodEntry st.key_int_size st.content_int_size e) ∧
  (es.map Prod.fst).Nodup

instance (st : DbState) (es : List (Key × List Nat)) : Decidable (Models st es) := by
  unfold Models; infer_instance

deriving instance DecidableEq for Except

/-! # Lemmas

## Byte primitives -/

theorem toLE_length (L n : Nat) : (toLE L n).length = L := by
  induction L generalizing n with
  | zero => rfl
  | succ L ih => simp [toLE, ih]

theorem fromLE_toLE (L n : Nat) (h : n < 256 ^ L) : fromLE (toLE L n) = n := by
  induction L generalizing n with
  | zero =>
    simp [pow_zero] at h
    simp [toLE, fromLE, h]
  | succ L ih =>
    have hdiv : n / 256 < 256 ^ L := by
      rw [Nat.div_lt_iff_lt_mul (by norm_num)]
      calc n < 256 ^ (L + 1) := h
        _ = 256 ^ L * 256 := by ring
    have : fromLE (toLE L (n / 256)) = n / 256 := ih (n / 256) hdiv
    simp only [toLE, fromLE, List.foldr_cons]
    have hrest : (toLE L (n / 256)).foldr (fun b acc => b + 256 * acc) 0 = n / 256 := this
    rw [hrest]
    omega

theorem fileRead_def (f : List Nat) (pos n : Nat) :
    fileRead f pos n = (f.drop pos).take n := rfl

theorem drop_of_drop_eq {f l : List Nat} {pos : Nat} (h : f.drop pos = l) (j : Nat) :
    f.drop (pos + j) = l.drop j := by
  rw [← h, ← List.drop_drop]

theorem length_lt_of_drop_cons {f : List Nat} {pos : Nat} {b : Nat} {l : List Nat}
    (h : f.drop pos = b :: l) : pos < f.length := by
  by_contra hc
  rw [List.drop_eq_nil_of_le (by omega)] at h
  exact List.noConfusion h

/-! ## read_to / seek_to -/

theorem readTo0_spec (s r : List Nat) (hs : ¬ 0 ∈ s) :
    readTo0 (s ++ 0 :: r) = (s, s.length + 1) := by
  induction s with
  | nil => simp [readTo0]
  | cons b s ih =>
    simp only [List.mem_cons, not_or] at hs
    have hb : b ≠ 0 := fun hb => hs.1 hb.symm
    simp [readTo0, hb, ih hs.2]

theorem seekToNul_spec (s r : List Nat) (hs : ¬ 0 ∈ s) :
    seekToNul (s ++ 0 :: r) = s.length + 1 := by
  induction s with
  | nil => simp [seekToNul]
  | cons b s ih =>
    simp only [List.mem_cons, not_or] at hs
    have hb : b ≠ 0 := fun hb => hs.1 hb.symm
    show (if b = 0 then 1 else 1 + seekToNul (s ++ 0 :: r)) = (b :: s).length + 1
    rw [if_neg hb, ih hs.2, List.length_cons]
    omega

/-! ## Decimal digits and the info-document round trip -/

theorem decDigitsCore_acc (fuel : Nat) : ∀ n acc,
    decDigitsCore fuel n acc = decDigitsCore fuel n [] ++ acc := by
  induction fuel with
  | zero => intro n acc; rfl
  | succ fuel ih =>
    intro n acc
    by_cases h : n < 10
    · simp [decDigitsCore, h]
    · simp only [decDigitsCore, if_neg h]
      rw [ih (n / 10) ((48 + n % 10) :: acc), ih (n / 10) [48 + n % 10]]
      simp

theorem decDigitsCore_fuel : ∀ n fuel, n < fuel →
    decDigitsCore fuel n [] = decDigits n := by
  intro n
  induction n using Nat.strong_induction_on with
  | _ n ih =>
    intro fuel h
    match fuel, h with
    | fuel + 1, h =>
      by_cases h10 : n < 10
      · simp [decDigitsCore, decDigits, h10]
      · have hd : n / 10 < n := Nat.div_lt_self (by omega) (by omega)
        have e1 : decDigitsCore (fuel + 1) n [] = decDigits (n / 10) ++ [48 + n % 10] := by
          have estep : decDigitsCore (fuel + 1) n []
              = decDigitsCore fuel (n / 10) [48 + n % 10] := by
            simp [decDigitsCore, h10]
          rw [estep, decDigitsCore_acc, ih (n / 10) hd fuel (by omega)]
        have e2 : decDigits n = decDigits (n / 10) ++ [48 + n % 10] := by
          have estep : decDigits n = decDigitsCore n (n / 10) [48 + n % 10] := by
            simp [decDigits, decDigitsCore, h10]
          rw [estep, decDigitsCore_acc, ih (n / 10) hd n (by omega)]
        rw [e1, e2]

theorem decDigits_lt10 {n : Nat} (h : n < 10) : decDigits n = [48 + n] := by
  simp [decDigits, decDigitsCore, h]

theorem decDigits_ge10 {n : Nat} (h : 10 ≤ n) :
    decDigits n = decDigits (n / 10) ++ [48 + n % 10] := by
  have hd : n / 10 < n := Nat.div_lt_self (by omega) (by omega)
  have hn10 : ¬ n < 10 := by omega
  have estep : decDigits n = decDigitsCore n (n / 10) [48 + n % 10] := by
    simp [decDigits, decDigitsCore, hn10]
  rw [estep, decDigitsCore_acc, decDigitsCore_fuel (n / 10) n (by omega)]

theorem decDigits_digits (n : Nat) : ∀ b ∈ decDigits n, 48 ≤ b ∧ b ≤ 57 := by
  induction n using Nat.strong_induction_on with
  | _ n ih =>
    by_cases h : n < 10
    · rw [decDigits_lt10 h]
      intro b hb
      simp at hb
      omega
    · rw [decDigits_ge10 (by omega)]
      intro b hb
      rcases List.mem_append.mp hb with h1 | h2
      · exact ih (n / 10) (Nat.div_lt_self (by omega) (by omega)) b h1
      · simp at h2
        have := Nat.mod_lt n (show 0 < 10 by omega)
        omega

theorem digitsVal_append_digit (l : List Nat) (d : Nat) :
    digitsVal (l ++ [d]) = 10 * digitsVal l + (d - 48) := by
  simp only [digitsVal, List.foldl_append, List.foldl_cons, List.foldl_nil]
  ring

theorem digitsVal_decDigits (n : Nat) : digitsVal (decDigits n) = n := by
  induction n using Nat.strong_induction_on with
  | _ n ih =>
    by_cases h : n < 10
    · rw [decDigits_lt10 h]
      simp [digitsVal]
    · rw [decDigits_ge10 (by omega), digitsVal_append_digit,
        ih (n / 10) (Nat.div_lt_self (by omega) (by omega))]
      omega

theorem takeWhile_all_append {p : Nat → Bool} {l : List Nat} (r : List Nat)
    (hl : ∀ x ∈ l, p x = true) (hr : ∀ h : 0 < r.length, p (r.get ⟨0, h⟩) = false) :
    (l ++ r).takeWhile p = l ∧ (l ++ r).dropWhile p = r := by
  induction l with
  | nil =>
    cases r with
    | nil => simp
    | cons b r =>
      have hb : p b = false := hr (by simp)
      simp [List.takeWhile, List.dropWhile, hb]
  | cons a l ih =>
    have ha : p a = true := hl a (by simp)
    have := ih (fun x hx => hl x (by simp [hx]))
    simp [List.takeWhile_cons, List.dropWhile_cons, ha, this.1, this.2]

theorem parseNat_spec (n : Nat) (b : Nat) (r : List Nat) (hb : isDigit b = false) :
    parseNat (decDigits n ++ b :: r) = some (n, b :: r) := by
  have hall : ∀ x ∈ decDigits n, isDigit x = true := by
    intro x hx
    have := decDigits_digits n x hx
    simp [isDigit]
    omega
  have hne : decDigits n ≠ [] := by
    by_cases h : n < 10
    · rw [decDigits_lt10 h]; simp
    · rw [decDigits_ge10 (by omega)]; simp
  have h := takeWhile_all_append (b :: r) hall (fun _ => hb)
  simp only [parseNat, h.1, h.2, List.isEmpty_iff, if_neg hne, digitsVal_decDigits]

theorem parseLit_spec (lit r : List Nat) : parseLit lit (lit ++ r) = some r := by
  simp [parseLit, List.take_left' rfl, List.drop_left' rfl]

theorem parseNat_before_lit (n : Nat) (lit X : List Nat) (b : Nat) (t : List Nat)
    (hlit : lit = b :: t) (hb : isDigit b = false) :
    parseNat (decDigits n ++ (lit ++ X)) = some (n, lit ++ X) := by
  subst hlit
  rw [List.cons_append]
  exact parseNat_spec n b (t ++ X) hb

theorem parseInfo_infoJson (k c i : Nat) :
    parseInfo (infoJson k c i) = some (k, c, i) := by
  have h44 : isDigit 44 = false := by decide
  have h125 : isDigit 125 = false := by decide
  unfold parseInfo infoJson
  simp only [List.append_assoc]
  rw [parseLit_spec]
  simp only [Option.bind_eq_bind, Option.some_bind]
  rw [parseNat_before_lit k litContentInt _ 44 (litContentInt.drop 1) rfl h44]
  simp only [Option.some_bind]
  rw [parseLit_spec]
  simp only [Option.some_bind]
  rw [parseNat_before_lit c litIntList _ 44 (litIntList.drop 1) rfl h44]
  simp only [Option.some_bind]
  rw [parseLit_spec]
  simp only [Option.some_bind]
  rw [show decDigits i ++ [125] = decDigits i ++ (125 :: []) from rfl,
    parseNat_spec i 125 [] h125]
  simp

theorem infoJson_no_nul (k c i : Nat) : ¬ 0 ∈ infoJson k c i := by
  intro hmem
  unfold infoJson at hmem
  simp only [List.mem_append, List.mem_cons] at hmem
  have hk := decDigits_digits k 0
  have hc := decDigits_digits c 0
  have hi := decDigits_digits i 0
  rcases hmem with ((((((h | h) | h) | h) | h) | h) | h)
  · revert h; decide
  · exact absurd (hk h).1 (by omega)
  · revert h; decide
  · exact absurd (hc h).1 (by omega)
  · revert h; decide
  · exact absurd (hi h).1 (by omega)
  · simp at h

/-! ## Append / take / drop helpers -/

theorem drop_append_ge {A B : List Nat} {n : Nat} (h : A.length ≤ n) :
    (A ++ B).drop n = B.drop (n - A.length) := by
  rw [show n = A.length + (n - A.length) from by omega, ← List.drop_drop, List.drop_left]
  congr 1
  omega

theorem take_append_ge {A B : List Nat} {n : Nat} (h : A.length ≤ n) :
    (A ++ B).take n = A ++ B.take (n - A.length) := by
  induction A generalizing n with
  | nil => simp
  | cons a A ih =>
    simp only [List.length_cons] at h
    obtain ⟨m, rfl⟩ : ∃ m, n = m + 1 := ⟨n - 1, by omega⟩
    simp only [List.cons_append, List.take_succ_cons, List.length_cons]
    rw [ih (by omega)]
    have harith : m + 1 - (A.length + 1) = m - A.length := by omega
    rw [harith]

theorem take_append_le {A B : List Nat} {n : Nat} (h : n ≤ A.length) :
    (A ++ B).take n = A.take n := by
  induction A generalizing n with
  | nil =>
    have : n = 0 := by simpa using h
    simp [this]
  | cons a A ih =>
    cases n with
    | zero => simp
    | succ m =>
      simp only [List.length_cons] at h
      simp only [List.cons_append, List.take_succ_cons]
      rw [ih (by omega)]

/-! ## The write primitive and the backward-copy loop of delete -/

theorem take_take_length (l : List Nat) (n : Nat) :
    l.take ((l.take n).length) = l.take n := by
  rw [List.length_take]
  rcases Nat.le_total n l.length with h | h
  · rw [Nat.min_eq_left h]
  · rw [Nat.min_eq_right h, List.take_of_length_le h, List.take_of_length_le (le_refl _)]

theorem writeAt_inb {f : List Nat} {p : Nat} {d : List Nat} (h : p + d.length ≤ f.length) :
    writeAt f p d = f.take p ++ d ++ f.drop (p + d.length) := by
  unfold writeAt
  rw [show p - f.length = 0 from by omega]
  simp

theorem writeAt_inb_length {f : List Nat} {p : Nat} {d : List Nat}
    (h : p + d.length ≤ f.length) : (writeAt f p d).length = f.length := by
  rw [writeAt_inb h]
  simp only [List.length_append, List.length_take, List.length_drop]
  omega

/-- The backward-copy loop is exactly an in-place splice: the bytes between
`readPos - entry_len` and `readPos` are overwritten by everything from
`readPos` on, and the final `entry_len` bytes of the file (about to be
truncated) keep their old values. -/
theorem shiftLoop_spec (entry_len : Nat) : ∀ (fuel : Nat) (f : List Nat) (readPos : Nat),
    entry_len ≤ readPos → readPos ≤ f.length → f.length ≤ readPos + fuel →
    (shiftLoop entry_len fuel f readPos).1 =
      f.take (readPos - entry_len) ++ f.drop readPos ++ f.drop (f.length - entry_len) := by
  intro fuel
  induction fuel with
  | zero =>
    intro f readPos h1 h2 h3
    have hrp : readPos = f.length := by omega
    subst hrp
    simp only [shiftLoop, List.drop_length, List.append_nil]
    rw [List.take_append_drop]
  | succ fuel ih =>
    intro f readPos h1 h2 h3
    by_cases hend : readPos = f.length
    · subst hend
      have hdata : fileRead f f.length 1024 = [] := by
        simp [fileRead]
      simp only [shiftLoop, hdata, List.isEmpty_nil, if_pos]
      simp only [List.drop_length, List.append_nil]
      rw [List.take_append_drop]
    · have hlt : readPos < f.length := by omega
      set d := fileRead f readPos 1024 with hd
      have hdlen : d.length = min 1024 (f.length - readPos) := by
        simp [hd, fileRead]
      have hdne : ¬ d.isEmpty := by
        rw [List.isEmpty_iff]
        intro hnil
        rw [hnil] at hdlen
        simp at hdlen
        omega
      have hdpos : 0 < d.length := by
        rcases d with _ | ⟨x, xs⟩
        · simp at hdne
        · simp
      have hinb : (readPos - entry_len) + d.length ≤ f.length := by omega
      have hflen : (writeAt f (readPos - entry_len) d).length = f.length :=
        writeAt_inb_length hinb
      simp only [shiftLoop, if_neg hdne]
      rw [← hd]
      have hrec := ih (writeAt f (readPos - entry_len) d) (readPos + d.length)
        (by omega) (by rw [hflen]; omega) (by rw [hflen]; omega)
      rw [hrec, hflen]
      have hg : writeAt f (readPos - entry_len) d
          = f.take (readPos - entry_len) ++ d ++ f.drop (readPos - entry_len + d.length) :=
        writeAt_inb hinb
      have hlen_take : (f.take (readPos - entry_len)).length = readPos - entry_len := by
        simp only [List.length_take]
        omega
      -- the three take/drop projections of the overwritten file
      have hproj_take : (writeAt f (readPos - entry_len) d).take (readPos + d.length - entry_len)
          = f.take (readPos - entry_len) ++ d := by
        rw [hg, List.append_assoc, take_append_ge (by rw [hlen_take]; omega), hlen_take]
        rw [show readPos + d.length - entry_len - (readPos - entry_len) = d.length from by omega]
        rw [take_append_le (le_refl _), List.take_length]
      have hproj_drop : ∀ n, readPos - entry_len + d.length ≤ n →
          (writeAt f (readPos - entry_len) d).drop n = f.drop n := by
        intro n hn
        rw [hg, List.append_assoc, drop_append_ge (by rw [hlen_take]; omega), hlen_take,
          drop_append_ge (by omega), List.drop_drop]
        congr 1
        omega
      rw [hproj_take]
      rw [hproj_drop (readPos + d.length) (by omega)]
      rw [hproj_drop (f.length - entry_len) (by omega)]
      obtain ⟨k, hk⟩ : ∃ k, k = d.length := ⟨d.length, rfl⟩
      have hd_take : (f.drop readPos).take k = d := by
        rw [hk]
        conv_lhs => rw [hd, fileRead_def]
        rw [take_take_length, ← fileRead_def, ← hd]
      have hjoin : d ++ f.drop (readPos + k) = f.drop readPos := by
        rw [← hd_take, ← List.drop_drop, List.take_append_drop]
      rw [← hk, List.append_assoc (f.take (readPos - entry_len)) d, hjoin]

/-! ## Entry layout lemmas -/

theorem entryBytes_length (kis cis : Nat) (k : Key) (d : List Nat) :
    (entryBytes kis cis k d).length = 2 + (keyBytes kis k).length + cis + d.length := by
  simp only [entryBytes, List.length_cons, List.length_append, toLE_length]
  omega

theorem entsBytes_append (kis cis : Nat) (es1 es2 : List (Key × List Nat)) :
    entsBytes kis cis (es1 ++ es2) = entsBytes kis cis es1 ++ entsBytes kis cis es2 := by
  induction es1 with
  | nil => simp [entsBytes]
  | cons e es1 ih =>
    rcases e with ⟨k, d⟩
    simp only [List.cons_append, entsBytes, List.append_eq, ih, List.append_assoc]

theorem idxEnts_append (kis cis : Nat) (b : Nat) (es1 es2 : List (Key × List Nat)) :
    idxEnts kis cis b (es1 ++ es2) =
      idxEnts kis cis b es1 ++ idxEnts kis cis (b + (entsBytes kis cis es1).length) es2 := by
  induction es1 generalizing b with
  | nil => simp [idxEnts, entsBytes]
  | cons e es1 ih =>
    rcases e with ⟨k, d⟩
    simp only [List.cons_append, idxEnts, entsBytes, List.append_eq, List.length_append]
    rw [ih]
    rw [show b + (entryBytes kis cis k d).length + (entsBytes kis cis es1).length
        = b + ((entryBytes kis cis k d).length + (entsBytes kis cis es1).length) from by omega]

theorem idxEnts_keys (kis cis : Nat) (b : Nat) (es : List (Key × List Nat)) :
    (idxEnts kis cis b es).map Prod.fst = es.map Prod.fst := by
  induction es generalizing b with
  | nil => rfl
  | cons e es ih =>
    rcases e with ⟨k, d⟩
    simp [idxEnts, ih]

theorem idxEnts_offsets (kis cis : Nat) (b : Nat) (es : List (Key × List Nat)) :
    ∀ p ∈ idxEnts kis cis b es, b + 2 ≤ p.2 ∧ p.2 ≤ b + (entsBytes kis cis es).length := by
  induction es generalizing b with
  | nil => simp [idxEnts]
  | cons e es ih =>
    rcases e with ⟨k, d⟩
    intro p hp
    rcases List.mem_cons.mp hp with rfl | hmem
    · refine ⟨by omega, ?_⟩
      simp only [entsBytes, List.length_append, entryBytes_length]
      omega
    · have := ih (b + (entryBytes kis cis k d).length) p hmem
      refine ⟨by omega, ?_⟩
      simp only [entsBytes, List.length_append]
      omega

theorem idxEnts_shift (kis cis : Nat) (b e : Nat) (es : List (Key × List Nat)) (h : e ≤ b) :
    (idxEnts kis cis b es).map (fun p => (p.1, p.2 - e)) = idxEnts kis cis (b - e) es := by
  induction es generalizing b with
  | nil => rfl
  | cons ent es ih =>
    rcases ent with ⟨k, d⟩
    simp only [idxEnts, List.map_cons]
    rw [show b + 2 + (keyBytes kis k).length - e = b - e + 2 + (keyBytes kis k).length
      from by omega]
    rw [ih (b + (entryBytes kis cis k d).length) (by omega)]
    rw [show b + (entryBytes kis cis k d).length - e
      = b - e + (entryBytes kis cis k d).length from by omega]

/-! ## Dict (in-memory index) lemmas -/

theorem lookupKey_nil (k : Key) : lookupKey [] k = none := rfl

theorem lookupKey_cons (e : Key × Nat) (m : List (Key × Nat)) (k : Key) :
    lookupKey (e :: m) k = if e.1 = k then some e.2 else lookupKey m k := by
  by_cases h : e.1 = k
  · simp [lookupKey, List.find?_cons_of_pos, h]
  · simp [lookupKey, List.find?_cons_of_neg, h]

theorem lookupKey_eq_none {m : List (Key × Nat)} {k : Key} (h : ¬ k ∈ m.map Prod.fst) :
    lookupKey m k = none := by
  induction m with
  | nil => rfl
  | cons e m ih =>
    simp only [List.map_cons, List.mem_cons, not_or] at h
    rw [lookupKey_cons, if_neg (fun hk => h.1 hk.symm), ih h.2]

theorem lookupKey_mem_of_isSome {m : List (Key × Nat)} {k : Key}
    (h : (lookupKey m k).isSome) : k ∈ m.map Prod.fst := by
  by_contra hc
  rw [lookupKey_eq_none hc] at h
  simp at h

theorem lookupKey_append_left {m1 m2 : List (Key × Nat)} {k : Key}
    (h : ¬ k ∈ m1.map Prod.fst) : lookupKey (m1 ++ m2) k = lookupKey m2 k := by
  induction m1 with
  | nil => rfl
  | cons e m1 ih =>
    simp only [List.map_cons, List.mem_cons, not_or] at h
    rw [List.cons_append, lookupKey_cons, if_neg (fun hk => h.1 hk.symm), ih h.2]

theorem dictInsert_absent {m : List (Key × Nat)} {k : Key} (v : Nat)
    (h : lookupKey m k = none) : dictInsert m k v = m ++ [(k, v)] := by
  simp [dictInsert, h]

theorem eraseKey_not_mem {m : List (Key × Nat)} {k : Key} (h : ¬ k ∈ m.map Prod.fst) :
    eraseKey m k = m := by
  induction m with
  | nil => rfl
  | cons e m ih =>
    simp only [List.map_cons, List.mem_cons, not_or] at h
    simp only [eraseKey, List.filter_cons]
    rw [if_pos (by simpa using fun hk => h.1 hk.symm)]
    have hfold := ih h.2
    simp only [eraseKey] at hfold
    rw [hfold]

theorem eraseKey_middle {m1 m2 : List (Key × Nat)} {k : Key} {x : Nat}
    (h1 : ¬ k ∈ m1.map Prod.fst) (h2 : ¬ k ∈ m2.map Prod.fst) :
    eraseKey (m1 ++ (k, x) :: m2) k = m1 ++ m2 := by
  induction m1 with
  | nil =>
    simp only [List.nil_append, eraseKey, List.filter_cons]
    rw [if_neg (by simp)]
    have hfold := eraseKey_not_mem h2
    simp only [eraseKey] at hfold
    rw [hfold]
  | cons e m1 ih =>
    simp only [List.map_cons, List.mem_cons, not_or] at h1
    simp only [List.cons_append, eraseKey, List.filter_cons]
    rw [if_pos (by simpa using fun hk => h1.1 hk.symm)]
    have := ih h1.2
    simp only [eraseKey] at this
    rw [this]

/-! ## Scanner correctness on well-formed files -/

theorem entryBytes_cons (kis cis : Nat) (k : Key) (d rest : List Nat) :
    entryBytes kis cis k d ++ rest
      = 0 :: (keyBytes kis k ++ 0 :: (toLE cis d.length ++ (d ++ rest))) := by
  simp [entryBytes, List.cons_append, List.append_assoc]

theorem keyBytes_length (kis : Nat) (k : Key) :
    (keyBytes kis k).length = (match k with | .str s => s.length + 1 | .int _ => kis + 1) := by
  cases k <;> simp [keyBytes, toLE_length]

/-- One forward pass of the `get_headers` loop over a well-formed suffix of
entries reconstructs exactly the induced index. -/
theorem scanGo_spec (kis cis : Nat) (f : List Nat) :
    ∀ (es : List (Key × List Nat)) (pos : Nat) (acc : List (Key × Nat)) (fuel : Nat),
    (∀ e ∈ es, goodEntry kis cis e) →
    f.drop pos = entsBytes kis cis es →
    pos + (entsBytes kis cis es).length = f.length →
    f.length + 1 ≤ fuel + pos →
    (es.map Prod.fst).Nodup →
    (∀ k ∈ es.map Prod.fst, ¬ k ∈ acc.map Prod.fst) →
    scanGo kis cis f fuel pos acc = .ok (acc ++ idxEnts kis cis pos es, f.length) := by
  intro es
  induction es with
  | nil =>
    intro pos acc fuel hgood hdrop hlen hfuel hnodup hdisj
    simp only [entsBytes] at hdrop hlen
    have hpos : pos = f.length := by simpa using hlen
    obtain ⟨fuel0, rfl⟩ : ∃ fuel0, fuel = fuel0 + 1 := ⟨fuel - 1, by omega⟩
    have hm : fileRead f pos 1 = [] := by
      rw [fileRead_def, hdrop, List.take_nil]
    simp only [scanGo, hm]
    rw [if_neg (by simp)]
    simp [idxEnts, hpos]
  | cons e es ih =>
    intro pos acc fuel hgood hdrop hlen hfuel hnodup hdisj
    rcases e with ⟨k, d⟩
    have hgk : goodKey kis k := (hgood (k, d) (by simp)).1
    have hgd : d.length < 256 ^ cis := (hgood (k, d) (by simp)).2
    simp only [entsBytes] at hdrop
    rw [entryBytes_cons] at hdrop
    have hposlt : pos < f.length := length_lt_of_drop_cons hdrop
    obtain ⟨fuel0, rfl⟩ : ∃ fuel0, fuel = fuel0 + 1 := ⟨fuel - 1, by omega⟩
    have hm : fileRead f pos 1 = [0] := by
      rw [fileRead_def, hdrop]
      rfl
    -- size bookkeeping
    have hlen' : pos + (entryBytes kis cis k d).length
        + (entsBytes kis cis es).length = f.length := by
      simp only [entsBytes, List.length_append] at hlen
      omega
    have hkd := keyBytes_length kis k
    cases k with
    | str s =>
      have hs : ¬ 0 ∈ s := hgk
      simp only [keyBytes, List.cons_append] at hdrop
      -- hdrop : f.drop pos = 0 :: 1 :: (s ++ 0 :: (toLE cis d.length ++ (d ++ ents es)))
      have hkt : fileRead f (pos + 1) 1 = [1] := by
        rw [fileRead_def, drop_of_drop_eq hdrop 1]
        rfl
      have hdrop2 : f.drop (pos + 2)
          = s ++ 0 :: (toLE cis d.length ++ (d ++ entsBytes kis cis es)) := by
        rw [drop_of_drop_eq hdrop 2]
        rfl
      have hread := readTo0_spec s (toLE cis d.length ++ (d ++ entsBytes kis cis es)) hs
      have hdropOff : f.drop (pos + 2 + (s.length + 1))
          = toLE cis d.length ++ (d ++ entsBytes kis cis es) := by
        rw [drop_of_drop_eq hdrop2 (s.length + 1), drop_append_ge (by omega)]
        simp
      have hlb : fileRead f (pos + 2 + (s.length + 1)) cis = toLE cis d.length := by
        rw [fileRead_def, hdropOff, List.take_left' (toLE_length cis d.length)]
      have hfl : fromLE (toLE cis d.length) = d.length := fromLE_toLE cis d.length hgd
      have hdropNext : f.drop (pos + 2 + (s.length + 1) + cis + d.length)
          = entsBytes kis cis es := by
        rw [show pos + 2 + (s.length + 1) + cis + d.length
            = pos + 2 + (s.length + 1) + (cis + d.length) from by omega]
        rw [drop_of_drop_eq hdropOff (cis + d.length), ← List.drop_drop,
          List.drop_left' (toLE_length cis d.length), List.drop_left]
      -- unfold one loop iteration
      simp only [scanGo, hm, hkt, if_true]
      rw [hdrop2, hread]
      dsimp only
      rw [hlb, toLE_length, hfl]
      -- the new accumulator
      have hknotacc : ¬ (Key.str s) ∈ acc.map Prod.fst := hdisj (Key.str s) (by simp)
      rw [dictInsert_absent _ (lookupKey_eq_none hknotacc)]
      -- recurse
      have hrec := ih (pos + 2 + (s.length + 1) + cis + d.length)
        (acc ++ [(Key.str s, pos + 2 + (s.length + 1))]) fuel0
        (fun e he => hgood e (by simp [he]))
        hdropNext
        (by rw [entryBytes_length] at hlen'; simp only [keyBytes, List.length_cons] at hlen'; omega)
        (by omega)
        (by simpa using hnodup.of_cons)
        (by
          intro k2 hk2 hk2acc
          simp only [List.map_append, List.mem_append] at hk2acc
          rcases hk2acc with h1 | h2
          · exact hdisj k2 (by simp [hk2]) h1
          · simp only [List.map_cons, List.map_nil, List.mem_singleton] at h2
            subst h2
            simp only [List.map_cons, List.nodup_cons] at hnodup
            exact hnodup.1 hk2)
      rw [hrec, idxEnts]
      simp only [keyBytes, List.length_cons, List.append_assoc, List.singleton_append]
      rw [entryBytes_length]
      simp only [keyBytes, List.length_cons]
      rw [show pos + (2 + (s.length + 1) + cis + d.length)
          = pos + 2 + (s.length + 1) + cis + d.length from by omega]
    | int n =>
      have hn0 : 0 ≤ n := hgk.1
      have hnlt : n.toNat < 256 ^ kis := by
        have := hgk.2
        have hcast : ((n.toNat : Int)) = n := Int.toNat_of_nonneg hn0
        have : (n.toNat : Int) < ((256 : Nat) ^ kis : Nat) := by
          rw [hcast]
          exact_mod_cast this
        exact_mod_cast this
      simp only [keyBytes, List.cons_append] at hdrop
      -- hdrop : f.drop pos = 0 :: 2 :: (toLE kis n.toNat ++ 0 :: (toLE cis d.length ++ (d ++ ents)))
      have hkt : fileRead f (pos + 1) 1 = [2] := by
        rw [fileRead_def, drop_of_drop_eq hdrop 1]
        rfl
      have hdrop2 : f.drop (pos + 2)
          = toLE kis n.toNat ++ 0 :: (toLE cis d.length ++ (d ++ entsBytes kis cis es)) := by
        rw [drop_of_drop_eq hdrop 2]
        rfl
      have hkb : fileRead f (pos + 2) kis = toLE kis n.toNat := by
        rw [fileRead_def, hdrop2, List.take_left' (toLE_length kis n.toNat)]
      have hdropOff : f.drop (pos + 2 + kis + 1)
          = toLE cis d.length ++ (d ++ entsBytes kis cis es) := by
        rw [show pos + 2 + kis + 1 = pos + 2 + (kis + 1) from by omega]
        rw [drop_of_drop_eq hdrop2 (kis + 1), ← List.drop_drop,
          List.drop_left' (toLE_length kis n.toNat)]
        rfl
      have hlb : fileRead f (pos + 2 + kis + 1) cis = toLE cis d.length := by
        rw [fileRead_def, hdropOff, List.take_left' (toLE_length cis d.length)]
      have hfl : fromLE (toLE cis d.length) = d.length := fromLE_toLE cis d.length hgd
      have hdropNext : f.drop (pos + 2 + kis + 1 + cis + d.length)
          = entsBytes kis cis es := by
        rw [show pos + 2 + kis + 1 + cis + d.length
            = pos + 2 + kis + 1 + (cis + d.length) from by omega]
        rw [drop_of_drop_eq hdropOff (cis + d.length), ← List.drop_drop,
          List.drop_left' (toLE_length cis d.length), List.drop_left]
      simp only [scanGo, hm, hkt, if_true]
      rw [if_neg (by decide)]
      rw [hkb, toLE_length, fromLE_toLE kis n.toNat hnlt,
        show Int.ofNat n.toNat = n from by
          rw [Int.ofNat_eq_coe]; exact Int.toNat_of_nonneg hn0]
      rw [hlb, toLE_length, hfl]
      have hknotacc : ¬ (Key.int n) ∈ acc.map Prod.fst := hdisj (Key.int n) (by simp)
      rw [dictInsert_absent _ (lookupKey_eq_none hknotacc)]
      have hrec := ih (pos + 2 + kis + 1 + cis + d.length)
        (acc ++ [(Key.int n, pos + 2 + kis + 1)]) fuel0
        (fun e he => hgood e (by simp [he]))
        hdropNext
        (by rw [entryBytes_length] at hlen'; simp only [keyBytes, List.length_cons,
              toLE_length] at hlen'; omega)
        (by omega)
        (by simpa using hnodup.of_cons)
        (by
          intro k2 hk2 hk2acc
          simp only [List.map_append, List.mem_append] at hk2acc
          rcases hk2acc with h1 | h2
          · exact hdisj k2 (by simp [hk2]) h1
          · simp only [List.map_cons, List.map_nil, List.mem_singleton] at h2
            subst h2
            simp only [List.map_cons, List.nodup_cons] at hnodup
            exact hnodup.1 hk2)
      rw [hrec, idxEnts]
      simp only [keyBytes, List.length_cons, toLE_length, List.append_assoc,
        List.singleton_append]
      rw [entryBytes_length]
      simp only [keyBytes, List.length_cons, toLE_length]
      rw [show pos + (2 + (kis + 1) + cis + d.length)
          = pos + 2 + kis + 1 + cis + d.length from by omega]
      rw [show pos + 2 + (kis + 1) = pos + 2 + kis + 1 from by omega]

theorem lookupKey_isSome_of_mem {m : List (Key × Nat)} {k : Key}
    (h : k ∈ m.map Prod.fst) : (lookupKey m k).isSome := by
  induction m with
  | nil => simp at h
  | cons e m ih =>
    rw [lookupKey_cons]
    by_cases hk : e.1 = k
    · simp [hk]
    · simp only [List.map_cons, List.mem_cons] at h
      rcases h with h | h
      · exact absurd h.symm hk
      · simp [hk, ih h]

theorem fileRep_drop (kis cis ils : Nat) (es : List (Key × List Nat)) :
    (fileRep kis cis ils es).drop ((infoJson kis cis ils).length + 1)
      = entsBytes kis cis es := by
  unfold fileRep
  rw [drop_append_ge (by omega)]
  simp

theorem fileRep_length (kis cis ils : Nat) (es : List (Key × List Nat)) :
    (fileRep kis cis ils es).length
      = (infoJson kis cis ils).length + 1 + (entsBytes kis cis es).length := by
  simp [fileRep]
  omega

/-- Rebuilding the index from a well-formed file recovers exactly the
induced index. -/
theorem get_headers_rep (kis cis ils : Nat) (es : List (Key × List Nat))
    (hgood : ∀ e ∈ es, goodEntry kis cis e) (hnodup : (es.map Prod.fst).Nodup) :
    get_headers kis cis (fileRep kis cis ils es)
      = .ok (idxEnts kis cis ((infoJson kis cis ils).length + 1) es,
             (fileRep kis cis ils es).length) := by
  unfold get_headers
  have hseek : seekToNul (fileRep kis cis ils es) = (infoJson kis cis ils).length + 1 := by
    unfold fileRep
    rw [show infoJson kis cis ils ++ 0 :: entsBytes kis cis es
        = infoJson kis cis ils ++ 0 :: entsBytes kis cis es from rfl]
    exact seekToNul_spec _ _ (infoJson_no_nul kis cis ils)
  rw [hseek]
  have := scanGo_spec kis cis (fileRep kis cis ils es) es
    ((infoJson kis cis ils).length + 1) [] ((fileRep kis cis ils es).length + 1)
    hgood (fileRep_drop kis cis ils es)
    (by rw [fileRep_length])
    (by rw [fileRep_length]; omega)
    hnodup (by simp)
  rw [this]
  simp

/-- Reopening a well-formed file: the persisted widths are readopted and
the index is rebuilt to exactly the induced index. -/
theorem openDb_rep (kis cis ils : Nat) (es : List (Key × List Nat))
    (hgood : ∀ e ∈ es, goodEntry kis cis e) (hnodup : (es.map Prod.fst).Nodup) :
    openDb (fileRep kis cis ils es)
      = .ok ⟨fileRep kis cis ils es, (fileRep kis cis ils es).length,
             idxEnts kis cis ((infoJson kis cis ils).length + 1) es, kis, cis, ils⟩ := by
  unfold openDb
  have hrd : readTo0 (fileRep kis cis ils es)
      = (infoJson kis cis ils, (infoJson kis cis ils).length + 1) := by
    unfold fileRep
    exact readTo0_spec _ _ (infoJson_no_nul kis cis ils)
  rw [hrd]
  dsimp only
  rw [parseInfo_infoJson]
  dsimp only
  rw [get_headers_rep kis cis ils es hgood hnodup]

/-- Every state satisfying `Models` reopens to a state with the same index
(the index-fidelity property, at the representation level). -/
theorem openDb_models {st : DbState} {es : List (Key × List Nat)} (hM : Models st es) :
    openDb st.file = .ok ⟨st.file, st.file.length, st.headers,
      st.key_int_size, st.content_int_size, st.int_list_size⟩ := by
  obtain ⟨hfile, hheaders, hgood, hnodup⟩ := hM
  rw [hfile, openDb_rep st.key_int_size st.content_int_size st.int_list_size es hgood
    (by rwa [] at hnodup)]
  rw [hheaders]

/-! ## Write preservation -/

theorem pyToBytes_ok {n : Int} {L : Nat} {b : List Nat} (h : pyToBytes n L = .ok b) :
    0 ≤ n ∧ n < (256 : Int) ^ L ∧ b = toLE L n.toNat := by
  unfold pyToBytes at h
  split at h
  · exact absurd h (by simp)
  · next hcond =>
    push_neg at hcond
    simp only [Except.ok.injEq] at h
    exact ⟨hcond.1, hcond.2, h.symm⟩

theorem int_to_bytes_some_ok {n : Int} {L : Nat} {hdr : Bool} {b : List Nat}
    (h : int_to_bytes n hdr (some L) = .ok b) :
    0 ≤ n ∧ n < (256 : Int) ^ L ∧
      b = (if hdr then 2 :: toLE L n.toNat else toLE L n.toNat) := by
  unfold int_to_bytes at h
  simp only [bind, Except.bind, pure, Except.pure] at h
  cases hpb : pyToBytes n L with
  | error e =>
    rw [hpb] at h
    exact absurd h (by simp)
  | ok data =>
    rw [hpb] at h
    simp only [Except.ok.injEq] at h
    obtain ⟨h0, hlt, hd⟩ := pyToBytes_ok hpb
    subst hd
    exact ⟨h0, hlt, h.symm⟩

theorem int_to_bytes_len_ok {m L : Nat} {b : List Nat}
    (h : int_to_bytes (Int.ofNat m) false (some L) = .ok b) :
    m < 256 ^ L ∧ b = toLE L m := by
  obtain ⟨h0, hlt, hb⟩ := int_to_bytes_some_ok h
  have hlt2 : ((m : Nat) : Int) < (256 : Int) ^ L := by
    rw [← Int.ofNat_eq_coe]
    exact hlt
  refine ⟨by exact_mod_cast hlt2, by simpa using hb⟩

theorem gen_header_ok {kis cis : Nat} {k : Key} {data header : List Nat} {off : Nat}
    (h : gen_header kis cis k data = .ok (header, off)) :
    data.length < 256 ^ cis ∧
    header = 0 :: keyBytes kis k ++ 0 :: toLE cis data.length ∧
    off = (keyBytes kis k).length + 2 ∧
    (∀ n, k = .int n → 0 ≤ n ∧ n < (256 : Int) ^ kis) := by
  unfold gen_header at h
  simp only [bind, Except.bind, pure, Except.pure] at h
  cases hclb : int_to_bytes (Int.ofNat data.length) false (some cis) with
  | error e =>
    rw [hclb] at h
    exact absurd h (by simp)
  | ok clb =>
    rw [hclb] at h
    obtain ⟨hdlen, hclb_eq⟩ := int_to_bytes_len_ok hclb
    subst hclb_eq
    cases k with
    | str s =>
      simp only [Except.ok.injEq, Prod.mk.injEq] at h
      exact ⟨hdlen, h.1.symm, h.2.symm, fun n hn => Key.noConfusion hn⟩
    | int n =>
      dsimp only at h
      cases hkb : int_to_bytes n true (some kis) with
      | error e =>
        rw [hkb] at h
        exact absurd h (by simp)
      | ok kb =>
        rw [hkb] at h
        obtain ⟨h0, hlt, hkb_eq⟩ := int_to_bytes_some_ok hkb
        simp only [if_true] at hkb_eq
        subst hkb_eq
        simp only [Except.ok.injEq, Prod.mk.injEq] at h
        refine ⟨hdlen, h.1.symm, h.2.symm, ?_⟩
        intro n2 hn2
        cases hn2
        exact ⟨h0, hlt⟩

/-- A successful `write` extends the represented entry list by one entry
(whose key, when a string, is assumed NUL-free). -/
theorem write_succ_models {st : DbState} {es : List (Key × List Nat)} {k : Key} {v : Value}
    {st1 : DbState} (hM : Models st es)
    (hnul : ∀ s, k = .str s → ¬ 0 ∈ s)
    (hw : write st k v = (st1, none)) :
    ∃ data, to_bytes st.int_list_size v = .ok data ∧ Models st1 (es ++ [(k, data)]) := by
  obtain ⟨hfile, hheaders, hgood, hnodup⟩ := hM
  cases hto : to_bytes st.int_list_size v with
  | error e =>
    rw [write, hto] at hw
    dsimp only at hw
    exact absurd (congrArg Prod.snd hw) (by simp)
  | ok data =>
    refine ⟨data, rfl, ?_⟩
    rw [write, hto] at hw
    dsimp only at hw
    unfold write_bytes at hw
    by_cases hdup : (lookupKey st.headers k).isSome
    · rw [if_pos hdup] at hw
      dsimp only at hw
      exact absurd (congrArg Prod.snd hw) (by simp)
    · rw [if_neg hdup] at hw
      have hkmem : ¬ k ∈ es.map Prod.fst := by
        intro hmem
        apply hdup
        apply lookupKey_isSome_of_mem
        rw [hheaders, idxEnts_keys]
        exact hmem
      cases hgh : gen_header st.key_int_size st.content_int_size k data with
      | error e =>
        rw [hgh] at hw
        dsimp only at hw
        exact absurd (congrArg Prod.snd hw) (by simp)
      | ok hc =>
        rcases hc with ⟨header, content_offset⟩
        rw [hgh] at hw
        dsimp only [write_raw_bytes] at hw
        obtain ⟨hdlen, hheader, hoff, hint⟩ := gen_header_ok hgh
        have hgk : goodKey st.key_int_size k := by
          cases k with
          | str s => exact hnul s rfl
          | int n => exact hint n rfl
        -- the successor state
        have hst1 : st1 = { st with
            file := st.file ++ (header ++ data),
            pos := st.file.length + (header ++ data).length,
            headers := dictInsert st.headers k (st.file.length + content_offset) } := by
          have := congrArg Prod.fst hw
          simpa using this.symm
        subst hst1
        have hknone : lookupKey st.headers k = none :=
          Option.not_isSome_iff_eq_none.mp hdup
        refine ⟨?_, ?_, ?_, ?_⟩
        · -- file representation
          show st.file ++ (header ++ data) = _
          rw [hfile, hheader]
          simp only [fileRep, entsBytes_append, entsBytes, entryBytes,
            List.append_assoc, List.cons_append, List.append_nil, List.nil_append]
        · -- index representation
          show dictInsert st.headers k (st.file.length + content_offset) = _
          rw [dictInsert_absent _ hknone, hheaders, idxEnts_append]
          simp only [idxEnts]
          rw [hoff, hfile, fileRep_length]
          rw [show (infoJson st.key_int_size st.content_int_size st.int_list_size).length + 1
              + (entsBytes st.key_int_size st.content_int_size es).length
              + ((keyBytes st.key_int_size k).length + 2)
              = (infoJson st.key_int_size st.content_int_size st.int_list_size).length + 1
              + (entsBytes st.key_int_size st.content_int_size es).length
              + 2 + (keyBytes st.key_int_size k).length from by omega]
        · -- entries well formed
          intro e he
          rcases List.mem_append.mp he with h1 | h2
          · exact hgood e h1
          · simp only [List.mem_singleton] at h2
            subst h2
            exact ⟨hgk, hdlen⟩
        · -- keys unique
          simp only [List.map_append, List.map_cons, List.map_nil]
          rw [List.nodup_append]
          exact ⟨hnodup, List.nodup_singleton _, by simpa using hkmem⟩

/-! ## Delete preservation -/

theorem nodup_split {es1 es2 : List (Key × List Nat)} {k : Key} {d : List Nat}
    (h : ((es1 ++ (k, d) :: es2).map Prod.fst).Nodup) :
    ¬ k ∈ es1.map Prod.fst ∧ ¬ k ∈ es2.map Prod.fst ∧
    ((es1 ++ es2).map Prod.fst).Nodup := by
  rw [List.map_append, List.map_cons, List.nodup_append] at h
  obtain ⟨h1, h2, hdis⟩ := h
  rw [List.nodup_cons] at h2
  refine ⟨fun hmem => hdis hmem (by simp), h2.1, ?_⟩
  rw [List.map_append, List.nodup_append]
  exact ⟨h1, h2.2, fun a ha hb => hdis ha (by simp [hb])⟩

theorem reconstruct_entry_len (kis cis : Nat) (k : Key) (d : List Nat) :
    reconstruct_header_size kis cis k + d.length
      = (entryBytes kis cis k d).length := by
  cases k with
  | str s =>
    simp only [reconstruct_header_size, entryBytes_length, keyBytes, List.length_cons]
    omega
  | int n =>
    simp only [reconstruct_header_size, entryBytes_length, keyBytes, List.length_cons,
      toLE_length]
    omega

/-- A `delete` of a present key on a well-formed state splices out exactly
that entry's bytes, leaves the cursor at the old end of file, and rebases
the index. -/
theorem delete_models {st : DbState} {es1 es2 : List (Key × List Nat)} {k : Key} {d : List Nat}
    (hM : Models st (es1 ++ (k, d) :: es2)) :
    delete st k =
      ({ st with
          file := fileRep st.key_int_size st.content_int_size st.int_list_size (es1 ++ es2),
          pos := st.file.length,
          headers := idxEnts st.key_int_size st.content_int_size
            ((infoJson st.key_int_size st.content_int_size st.int_list_size).length + 1)
            (es1 ++ es2) },
        none) := by
  obtain ⟨hfile, hheaders, hgood, hnodup⟩ := hM
  obtain ⟨hk1, hk2, hnodup12⟩ := nodup_split hnodup
  set kis := st.key_int_size with hkis
  set cis := st.content_int_size with hcis
  set ils := st.int_list_size with hils
  set P := (infoJson kis cis ils).length + 1 with hP
  set S1 := entsBytes kis cis es1 with hS1
  set S2 := entsBytes kis cis es2 with hS2
  set E := entryBytes kis cis k d with hE
  set pre := infoJson kis cis ils ++ 0 :: S1 with hpre
  have hprelen : pre.length = P + S1.length := by
    simp [hpre, hP]
    omega
  have hgd : d.length < 256 ^ cis := (hgood (k, d) (by simp)).2
  -- decompose the file
  have hf : st.file = pre ++ (E ++ S2) := by
    rw [hfile]
    simp [fileRep, entsBytes_append, entsBytes, hpre, hS1, hS2, hE, List.append_assoc]
  have hflen : st.file.length = pre.length + (E.length + S2.length) := by
    rw [hf]
    simp
  -- decompose the index
  set loc := P + S1.length + 2 + (keyBytes kis k).length with hloc
  set B2 := P + S1.length + E.length with hB2
  have hidx : st.headers = idxEnts kis cis P es1 ++ (k, loc) :: idxEnts kis cis B2 es2 := by
    rw [hheaders, idxEnts_append]
    simp only [idxEnts]
  have hlook : lookupKey st.headers k = some loc := by
    rw [hidx, lookupKey_append_left (by rw [idxEnts_keys]; exact hk1), lookupKey_cons,
      if_pos rfl]
  -- the bytes at the entry
  have hdrop_pre : st.file.drop pre.length = E ++ S2 := by
    rw [hf, List.drop_left]
  have hdrop_pre' : st.file.drop pre.length
      = 0 :: (keyBytes kis k ++ 0 :: (toLE cis d.length ++ (d ++ S2))) := by
    rw [hdrop_pre, hE, entryBytes_cons]
  have hdrop1 : st.file.drop (pre.length + 1)
      = keyBytes kis k ++ 0 :: (toLE cis d.length ++ (d ++ S2)) := by
    rw [drop_of_drop_eq hdrop_pre' 1]
    rfl
  have hdrop2 : st.file.drop (pre.length + 1 + (keyBytes kis k).length)
      = 0 :: (toLE cis d.length ++ (d ++ S2)) := by
    rw [show pre.length + 1 + (keyBytes kis k).length
        = pre.length + 1 + (keyBytes kis k).length from rfl]
    rw [drop_of_drop_eq hdrop1 (keyBytes kis k).length, List.drop_left]
  have hdroploc : st.file.drop loc = toLE cis d.length ++ (d ++ S2) := by
    rw [show loc = pre.length + 1 + (keyBytes kis k).length + 1 from by
      rw [hloc, hprelen]; omega]
    rw [drop_of_drop_eq hdrop2 1]
    rfl
  have hlb : fileRead st.file loc cis = toLE cis d.length := by
    rw [fileRead_def, hdroploc, List.take_left' (toLE_length cis d.length)]
  -- read_len
  have hrl : read_len st k = ({ st with pos := loc + cis }, .ok d.length) := by
    unfold read_len
    rw [hlook]
    dsimp only
    rw [hlb, toLE_length, fromLE_toLE cis d.length hgd]
  -- the shift loop splices the entry out
  have hEle : E.length ≤ pre.length + E.length := by omega
  have hshift := shiftLoop_spec E.length (st.file.length + 1) st.file (pre.length + E.length)
    (by omega) (by omega) (by omega)
  have htake_pre : st.file.take (pre.length + E.length - E.length) = pre := by
    rw [show pre.length + E.length - E.length = pre.length from by omega, hf,
      List.take_left]
  have hdrop_end : st.file.drop (pre.length + E.length) = S2 := by
    rw [hf, ← List.append_assoc, List.drop_left' (by simp)]
  rw [htake_pre, hdrop_end] at hshift
  have hf1len : (pre ++ S2 ++ st.file.drop (st.file.length - E.length)).length
      = st.file.length := by
    simp only [List.length_append, List.length_drop]
    omega
  -- the final file
  have hf2 : (pre ++ S2 ++ st.file.drop (st.file.length - E.length)).take
      (st.file.length - E.length) = pre ++ S2 := by
    rw [List.append_assoc, take_append_ge (by omega)]
    rw [take_append_le (by omega)]
    rw [show st.file.length - E.length - pre.length = S2.length from by omega,
      List.take_length]
  have hfile2 : pre ++ S2 = fileRep kis cis ils (es1 ++ es2) := by
    rw [hpre, hS1, hS2]
    simp [fileRep, entsBytes_append, List.append_assoc]
  -- the rebased index
  have hidx_erase : eraseKey st.headers k
      = idxEnts kis cis P es1 ++ idxEnts kis cis B2 es2 := by
    rw [hidx]
    exact eraseKey_middle (by rw [idxEnts_keys]; exact hk1) (by rw [idxEnts_keys]; exact hk2)
  have hE2 : E.length = 2 + (keyBytes kis k).length + cis + d.length := by
    rw [hE, entryBytes_length]
  have hS1len : S1.length = (entsBytes kis cis es1).length := by rw [hS1]
  have hidx_rebase :
      (idxEnts kis cis P es1 ++ idxEnts kis cis B2 es2).map
        (fun e => if loc + cis ≤ e.2 then (e.1, e.2 - E.length) else e)
      = idxEnts kis cis P (es1 ++ es2) := by
    rw [List.map_append]
    have hlow : (idxEnts kis cis P es1).map
        (fun e => if loc + cis ≤ e.2 then (e.1, e.2 - E.length) else e)
        = idxEnts kis cis P es1 := by
      have hcongr : ∀ p ∈ idxEnts kis cis P es1,
          (if loc + cis ≤ p.2 then (p.1, p.2 - E.length) else p) = id p := by
        intro p hp
        have hb := idxEnts_offsets kis cis P es1 p hp
        rw [if_neg (by omega)]
        rfl
      rw [List.map_congr_left hcongr, List.map_id]
    have hhigh : (idxEnts kis cis B2 es2).map
        (fun e => if loc + cis ≤ e.2 then (e.1, e.2 - E.length) else e)
        = idxEnts kis cis (P + S1.length) es2 := by
      have hcongr : ∀ p ∈ idxEnts kis cis B2 es2,
          (if loc + cis ≤ p.2 then (p.1, p.2 - E.length) else p)
            = (fun q => (q.1, q.2 - E.length)) p := by
        intro p hp
        have hb := idxEnts_offsets kis cis B2 es2 p hp
        rw [if_pos (by omega)]
      rw [List.map_congr_left hcongr, idxEnts_shift kis cis B2 E.length es2 (by omega)]
      rw [show B2 - E.length = P + S1.length from by omega]
    rw [hlow, hhigh, idxEnts_append]
  -- put the delete together
  unfold delete
  rw [hrl]
  dsimp only
  rw [show reconstruct_header_size kis cis k + d.length = E.length from by
    rw [reconstruct_entry_len, hE]]
  rw [show loc + cis + d.length = pre.length + E.length from by
    rw [hprelen, hloc, hE2]; omega]
  rw [hshift]
  rw [hf1len, hf2, hfile2]
  rw [hidx_erase, hidx_rebase]

/-! ## Reachability plumbing -/

theorem delete_absent {st : DbState} {k : Key} (h : lookupKey st.headers k = none) :
    delete st k = (st, some .keyError_notFound) := by
  unfold delete read_len
  rw [h]

theorem read_absent {st : DbState} {k : Key} (h : lookupKey st.headers k = none) :
    read st k = (st, .error .keyError_notFound) := by
  unfold read read_len
  rw [h]

theorem models_lookup_split {st : DbState} {es : List (Key × List Nat)} {k : Key} {loc : Nat}
    (hM : Models st es) (hl : lookupKey st.headers k = some loc) :
    ∃ es1 d es2, es = es1 ++ (k, d) :: es2 := by
  obtain ⟨hfile, hheaders, hgood, hnodup⟩ := hM
  have hsome : (lookupKey st.headers k).isSome := by rw [hl]; rfl
  have hmem : k ∈ es.map Prod.fst := by
    have := lookupKey_mem_of_isSome hsome
    rwa [hheaders, idxEnts_keys] at this
  obtain ⟨e, hemem, hek⟩ := List.mem_map.mp hmem
  obtain ⟨es1, es2, hsplit⟩ := List.append_of_mem hemem
  rcases e with ⟨k2, d⟩
  cases hek
  exact ⟨es1, d, es2, hsplit⟩

theorem delete_models_post {st : DbState} {es1 es2 : List (Key × List Nat)} {k : Key}
    {d : List Nat} (hM : Models st (es1 ++ (k, d) :: es2)) :
    Models (delete st k).1 (es1 ++ es2) := by
  rw [delete_models hM]
  obtain ⟨hfile, hheaders, hgood, hnodup⟩ := hM
  obtain ⟨_, _, hnodup12⟩ := nodup_split hnodup
  refine ⟨rfl, rfl, ?_, hnodup12⟩
  intro e he
  apply hgood
  rcases List.mem_append.mp he with h1 | h2
  · exact List.mem_append.mpr (Or.inl h1)
  · exact List.mem_append.mpr (Or.inr (by simp [h2]))

theorem bootstrap_models (kis cis ils : Nat) : Models (bootstrap kis cis ils) [] := by
  refine ⟨rfl, rfl, by simp, by simp⟩

/-- Every state reached from a bootstrap by successful operations whose
string keys are NUL-free represents some entry list. -/
theorem runOps_models {ops : List Op} : ∀ {st st' : DbState} {es : List (Key × List Nat)},
    Models st es → (∀ op ∈ ops, opStrKeyNulFree op) →
    runOps st ops = some st' → ∃ es', Models st' es' := by
  induction ops with
  | nil =>
    intro st st' es hM _ hrun
    simp only [runOps, Option.some.injEq] at hrun
    exact ⟨es, hrun ▸ hM⟩
  | cons op ops ih =>
    intro st st' es hM hops hrun
    cases op with
    | wr k v =>
      simp only [runOps] at hrun
      cases hw : write st k v with
      | mk st1 r =>
        rw [hw] at hrun
        cases r with
        | some e => exact absurd hrun (by simp)
        | none =>
          have hnul : ∀ s, k = .str s → ¬ 0 ∈ s := by
            intro s hs
            subst hs
            exact hops (.wr (.str s) v) (by simp)
          obtain ⟨data, _, hM1⟩ := write_succ_models hM hnul hw
          exact ih hM1 (fun o ho => hops o (by simp [ho])) hrun
    | del k =>
      simp only [runOps] at hrun
      cases hl : lookupKey st.headers k with
      | none =>
        rw [delete_absent hl] at hrun
        exact absurd hrun (by simp)
      | some loc =>
        obtain ⟨es1, d, es2, hsplit⟩ := models_lookup_split hM hl
        subst hsplit
        have hdel := delete_models hM
        rw [hdel] at hrun
        have hM1 := delete_models_post hM
        rw [hdel] at hM1
        exact ih hM1 (fun o ho => hops o (by simp [ho])) hrun

/-! # Claim theorems -/

/-- C1 (code_bug evidence): the round-trip claim fails at the supported
integer value 0: on a fresh default database, `write("a", 0)` raises the
math-domain `ValueError` from `math.log(0)` inside `int_to_bytes` before
any byte reaches the file, so `read` can never return 0.  (Spec §9
explicitly flags the undefined-at-zero width computation as a defect of
the source to be fixed.) -/
theorem C1_roundtrip_zero_fails :
    write (bootstrap 4 4 4) (Key.str [97]) (Value.vint 0)
      = (bootstrap 4 4 4, some Err.valueError_mathDomain) := by
  decide

/-- C2 (amended): after any finite sequence of successful writes and
deletes from a freshly bootstrapped database, provided no written string
key contains a NUL byte, the index rebuilt by reopening the file is
pointwise equal, as a mapping, to the in-memory index. -/
theorem C2_index_fidelity (kis cis ils : Nat) (ops : List Op) (st : DbState)
    (hnul : ∀ op ∈ ops, opStrKeyNulFree op)
    (hrun : runOps (bootstrap kis cis ils) ops = some st) :
    ∃ st2, openDb st.file = .ok st2 ∧
      ∀ q, lookupKey st2.headers q = lookupKey st.headers q := by
  obtain ⟨es, hM⟩ := runOps_models (bootstrap_models kis cis ils) hnul hrun
  refine ⟨_, openDb_models hM, ?_⟩
  intro q
  rfl

/-- C2 counterexample: the claim as stated quantifies over every sequence
of successful operations, but a write with the NUL-containing string key
"a\x00b" succeeds, and after it the rebuilt index maps that key to
nothing while the in-memory index still holds it, so the two are not
equal as mappings. -/
theorem C2_counterexample :
    runOps (bootstrap 4 4 4) [Op.wr (Key.str [97, 0, 98]) (Value.vstr [120])] = some stN ∧
    (lookupKey stN.headers (Key.str [97, 0, 98])).isSome = true ∧
    (openDb stN.file).toOption.map
      (fun s2 => lookupKey s2.headers (Key.str [97, 0, 98])) = some none := by
  decide

/-- C2 witness: a concrete write/write/delete sequence whose reopened
index agrees with the in-memory index. -/
theorem C2_witness :
    ∃ st2, openDb stR.file = .ok st2 ∧
      ∀ q, lookupKey st2.headers q = lookupKey stR.headers q :=
  C2_index_fidelity 4 4 4 opsW stR (by decide) (by decide)

/-- C3: deleting a present key succeeds, shrinks the file by exactly the
deleted entry's byte span (marker, key encoding, separators, length
field, content), and leaves the header record and every other entry's
bytes verbatim. -/
theorem C3_compaction (st : DbState) (es1 es2 : List (Key × List Nat)) (k : Key)
    (d : List Nat) (hM : Models st (es1 ++ (k, d) :: es2)) :
    (delete st k).2 = none ∧
    (delete st k).1.file.length
      = st.file.length - (entryBytes st.key_int_size st.content_int_size k d).length ∧
    (delete st k).1.file
      = infoJson st.key_int_size st.content_int_size st.int_list_size
          ++ 0 :: (entsBytes st.key_int_size st.content_int_size es1
                    ++ entsBytes st.key_int_size st.content_int_size es2) := by
  have hfile := hM.1
  rw [delete_models hM]
  refine ⟨rfl, ?_, ?_⟩
  · show (fileRep st.key_int_size st.content_int_size st.int_list_size (es1 ++ es2)).length = _
    rw [hfile, fileRep_length, fileRep_length, entsBytes_append, entsBytes_append]
    simp only [entsBytes, List.length_append]
    omega
  · show fileRep st.key_int_size st.content_int_size st.int_list_size (es1 ++ es2) = _
    rw [fileRep, entsBytes_append]

/-- C3 witness at a concrete two-entry database: deleting key "a". -/
theorem C3_witness :
    (delete stW (Key.str [97])).2 = none ∧
    (delete stW (Key.str [97])).1.file.length
      = stW.file.length - (entryBytes stW.key_int_size stW.content_int_size
          (Key.str [97]) [1, 120]).length ∧
    (delete stW (Key.str [97])).1.file
      = infoJson stW.key_int_size stW.content_int_size stW.int_list_size
          ++ 0 :: (entsBytes stW.key_int_size stW.content_int_size []
                    ++ entsBytes stW.key_int_size stW.content_int_size
                        [(Key.str [98], [1, 121])]) :=
  C3_compaction stW [] [(Key.str [98], [1, 121])] (Key.str [97]) [1, 120] (by decide)

/-- C4 (code_bug evidence): encoding the integer content value 0 (or any
negative integer) does not produce a minimum-width encoding or an
`EncodingError`: `math.log` raises an unrelated math-domain `ValueError`
for arguments `≤ 0`, exactly the defect spec §9 says must be fixed. -/
theorem C4_int_codec_zero_neg :
    int_to_bytes 0 true none = .error Err.valueError_mathDomain ∧
    int_to_bytes (-5) true none = .error Err.valueError_mathDomain ∧
    to_bytes 4 (Value.vint 0) = .error Err.valueError_mathDomain := by
  decide

/-- C5 counterexample: on a database holding key "a", `write("a", 0)`
does not fail with the duplicate-key error the claim demands for every
value: the value is encoded first, and encoding 0 raises the math-domain
`ValueError` instead. -/
theorem C5_counterexample :
    (lookupKey stA.headers (Key.str [97])).isSome = true ∧
    write stA (Key.str [97]) (Value.vint 0) = (stA, some Err.valueError_mathDomain) ∧
    Err.valueError_mathDomain ≠ Err.keyError_duplicate := by
  decide

/-- C5 (amended): for every key already present and every value the codec
can encode, `write` fails with the duplicate-key error and returns with
the file bytes, the cursor and the in-memory index exactly as they were. -/
theorem C5_duplicate_atomic (st : DbState) (k : Key) (v : Value) (data : List Nat)
    (hdup : (lookupKey st.headers k).isSome)
    (henc : to_bytes st.int_list_size v = .ok data) :
    write st k v = (st, some Err.keyError_duplicate) := by
  unfold write
  rw [henc]
  dsimp only
  unfold write_bytes
  rw [if_pos hdup]

/-- C5 witness: writing a fresh value under the already-present key "a". -/
theorem C5_witness :
    write stA (Key.str [97]) (Value.vstr [122]) = (stA, some Err.keyError_duplicate) :=
  C5_duplicate_atomic stA (Key.str [97]) (Value.vstr [122]) [1, 122] (by decide) (by decide)

/-- C6: for every key absent from the index, both `read` and `delete`
raise the missing-key error (the `KeyError` of `read_len`), returning the
state untouched — never a silent null result. -/
theorem C6_missing_key (st : DbState) (k : Key) (h : lookupKey st.headers k = none) :
    read st k = (st, .error Err.keyError_notFound) ∧
    delete st k = (st, some Err.keyError_notFound) :=
  ⟨read_absent h, delete_absent h⟩

/-- C6 witness: a key never written to a fresh database. -/
theorem C6_witness :
    read (bootstrap 4 4 4) (Key.str [99]) = (bootstrap 4 4 4, .error Err.keyError_notFound) ∧
    delete (bootstrap 4 4 4) (Key.str [99]) = (bootstrap 4 4 4, some Err.keyError_notFound) :=
  C6_missing_key (bootstrap 4 4 4) (Key.str [99]) (by decide)

/-- C7 counterexample: decoding the one-byte integer-list payload `[7]`
with element width 4 raises nothing at all — it returns the empty list,
silently dropping the trailing byte, where the claim demands a
`CorruptionError`. -/
theorem C7_counterexample :
    bytes_to_int_list 4 [7] = [] ∧
    from_bytes 4 [4, 7] = .ok (Value.vintList []) := by
  constructor
  · rfl
  · rfl

/-- C7 (amended): integer-list decoding never fails on a ragged payload:
it decodes exactly `len / width` complete elements and silently ignores
the trailing `len % width` bytes — the result is identical to decoding
the payload truncated to whole groups. -/
theorem C7_ragged_truncation (ils : Nat) (b : List Nat) :
    from_bytes ils (4 :: b) = .ok (.vintList (bytes_to_int_list ils b)) ∧
    (bytes_to_int_list ils b).length = b.length / ils ∧
    bytes_to_int_list ils b
      = bytes_to_int_list ils (b.take (b.length / ils * ils)) := by
  refine ⟨rfl, by simp [bytes_to_int_list], ?_⟩
  rcases Nat.eq_zero_or_pos ils with hz | hpos
  · subst hz
    simp [bytes_to_int_list]
  · have hqle : b.length / ils * ils ≤ b.length := Nat.div_mul_le_self b.length ils
    have hlen : (b.take (b.length / ils * ils)).length = b.length / ils * ils := by
      simp only [List.length_take]
      omega
    unfold bytes_to_int_list
    rw [hlen, Nat.mul_div_cancel _ hpos]
    apply List.map_congr_left
    intro i hi
    have hi2 : i < b.length / ils := List.mem_range.mp hi
    have hmul : i * ils + ils ≤ b.length / ils * ils := by
      have h1 : (i + 1) * ils ≤ b.length / ils * ils :=
        Nat.mul_le_mul_right ils (Nat.succ_le_of_lt hi2)
      rwa [Nat.succ_mul] at h1
    congr 1
    rw [List.take_drop, List.take_drop, List.take_take, Nat.min_eq_left hmul]

/-- C8: deleting the only entry of a database leaves an empty index and a
file containing exactly the header record (the serialized configuration
document and its NUL terminator) and nothing else. -/
theorem C8_delete_only_entry (st : DbState) (k : Key) (d : List Nat)
    (hM : Models st [(k, d)]) :
    (delete st k).2 = none ∧
    (delete st k).1.headers = [] ∧
    (delete st k).1.file
      = infoJson st.key_int_size st.content_int_size st.int_list_size ++ [0] := by
  rw [@delete_models st [] [] k d hM]
  exact ⟨rfl, rfl, by simp [fileRep, entsBytes]⟩

/-- C8 witness: the single-entry database `stA`. -/
theorem C8_witness :
    (delete stA (Key.str [97])).2 = none ∧
    (delete stA (Key.str [97])).1.headers = [] ∧
    (delete stA (Key.str [97])).1.file
      = infoJson stA.key_int_size stA.content_int_size stA.int_list_size ++ [0] :=
  C8_delete_only_entry stA (Key.str [97]) [1, 120] (by decide)

/-- C9: for a key present in the index, `read` changes neither the file
bytes nor the in-memory index, and its result is the same regardless of
where any earlier operation left the file cursor, because `read_len`
always seeks to the absolute indexed offset first. -/
theorem C9_read_pure (st : DbState) (k : Key) (loc : Nat) (c : Nat)
    (h : lookupKey st.headers k = some loc) :
    (read st k).1.file = st.file ∧
    (read st k).1.headers = st.headers ∧
    (read { st with pos := c } k).2 = (read st k).2 := by
  unfold read read_len
  dsimp only
  rw [h]
  exact ⟨rfl, rfl, rfl⟩

/-- C9 witness: reading key "a" from `stA` with the cursor first moved to
position 0. -/
theorem C9_witness :
    (read stA (Key.str [97])).1.file = stA.file ∧
    (read stA (Key.str [97])).1.headers = stA.headers ∧
    (read { stA with pos := 0 } (Key.str [97])).2 = (read stA (Key.str [97])).2 :=
  C9_read_pure stA (Key.str [97]) 62 0 (by decide)

/-- C10: writing the NUL-containing string key "a\x00b" succeeds and the
in-memory index holds it, but the index rebuilt by reopening the file
does not contain that key (the scanner stops the key at its first NUL),
so reading it after a reopen fails — the write/reopen/read round-trip
does not hold for such keys. -/
theorem C10_nul_key :
    (write (bootstrap 4 4 4) (Key.str [97, 0, 98]) (Value.vstr [120])).2 = none ∧
    (lookupKey stN.headers (Key.str [97, 0, 98])).isSome = true ∧
    (openDb stN.file).toOption.map
      (fun s2 => lookupKey s2.headers (Key.str [97, 0, 98])) = some none ∧
    (openDb stN.file).toOption.map
      (fun s2 => (read s2 (Key.str [97, 0, 98])).2)
      = some (.error Err.keyError_notFound) := by
  decide

end LazyDb
